import Mathlib

/-!
Verification development for the n8n "Crawl and Scrape" node
(`n8n-nodes-crawl-and-scrape`).  The node's request-configuration
assembly (header/cookie normalisation and reconciliation), its link
extraction, and the per-item execute loop are embedded as executable
Lean definitions over `List Char` strings and association-list records
that mirror JavaScript object semantics (insertion order, first-match
key lookup, in-place overwrite on re-assignment).
-/

namespace CrawlScrape

/-- Strings are modelled as lists of characters, so that the JS string
operations used by the node (`split`, `trim`, `indexOf`, `slice`,
`replace`, `includes`, `startsWith`, `toLowerCase`) become structural
list functions. -/
abbrev Str := List Char

/-- Whitespace recognised by JS `String.prototype.trim` (restricted to
the ASCII whitespace characters, which are the only ones relevant to
the header/cookie grammars). -/
def isWS (c : Char) : Bool :=
  c = ' ' || c = '\t' || c = '\n' || c = '\r' || c = '\x0b' || c = '\x0c'

/-- Remove trailing whitespace (the right half of JS `trim`). -/
def dropRightWS (s : Str) : Str :=
  (s.reverse.dropWhile isWS).reverse

/-- JS `String.prototype.trim`: strip whitespace from both ends. -/
def trimJS (s : Str) : Str :=
  (dropRightWS s).dropWhile isWS

/-- JS `String.prototype.split` on a single-character separator:
every occurrence splits, empty segments are kept
(`";".split(";") = ["", ""]`, `"".split(";") = [""]`). -/
def splitOnChar (sep : Char) : Str → List Str
  | [] => [[]]
  | c :: cs =>
    let r := splitOnChar sep cs
    if c = sep then [] :: r
    else
      match r with
      | [] => [[c]]
      | s :: ss => (c :: s) :: ss

/-- JS `String.prototype.indexOf` for a single character: index of the
first occurrence, `none` when absent (JS returns `-1`). -/
def idxOf (t : Char) : Str → Option Nat
  | [] => none
  | c :: cs => if c = t then some 0 else (idxOf t cs).map (· + 1)

/-- JS `String.prototype.toLowerCase` (ASCII range). -/
def lowerJS (s : Str) : Str := s.map Char.toLower

/-- JS `String.prototype.startsWith(':')`. -/
def startsWithColon (s : Str) : Bool :=
  match s with
  | [] => false
  | c :: _ => c = ':'

/-- A JS plain object with string keys and string values, in insertion
order.  All objects built by the node have pairwise distinct keys. -/
abbrev Rec := List (Str × Str)

/-- `Object.keys`, in insertion order. -/
def keysOf (m : Rec) : List Str := m.map Prod.fst

/-- Property read `m[k]`: the value of the first entry with key `k`. -/
def jsGet (m : Rec) (k : Str) : Option Str :=
  (m.find? (fun e => decide (e.fst = k))).map Prod.snd

/-- Property write `m[k] = v`: overwrite in place when the key exists,
otherwise append at the end (JS insertion-order semantics). -/
def jsSet (m : Rec) (k v : Str) : Rec :=
  if m.any (fun e => decide (e.fst = k)) then
    m.map (fun e => if e.fst = k then (k, v) else e)
  else m ++ [(k, v)]

/-- `delete m[k]`. -/
def jsDelete (m : Rec) (k : Str) : Rec :=
  m.filter (fun e => decide (e.fst ≠ k))

/-- `Object.assign(target, source)`: copy every entry of `source` into
`target` in order, overwriting on key collision. -/
def objAssign (target source : Rec) : Rec :=
  source.foldl (fun acc e => jsSet acc e.fst e.snd) target

/-- The literal `'cookie'` compared against lower-cased header keys. -/
def cookieName : Str := "cookie".data

/-- The literal `'accept-encoding'`. -/
def encName : Str := "accept-encoding".data

/-- The literal `'user-agent'`. -/
def uaName : Str := "user-agent".data

/-- One step of the `reduce` in the raw-cookie parser
(`src/types/custom.d.ts` lines 690–697): split the segment at its first
`=`; a segment without `=` is skipped; key and value are not trimmed
further. -/
def cookieStep (acc : Rec) (curr : Str) : Rec :=
  match idxOf '=' curr with
  | none => acc
  | some i => jsSet acc (curr.take i) (curr.drop (i + 1))

/-- The raw-cookie grammar (`src/types/custom.d.ts` lines 686–697, and
identically lines 716–727 inside `processHeaders`): split on `;`, trim
each segment, drop empty segments, then reduce with `cookieStep`. -/
def parseCookieString (raw : Str) : Rec :=
  ((((splitOnChar ';' raw).map trimJS).filter (fun c => !c.isEmpty))).foldl
    cookieStep []

/-- The body of the colon-form loop of `parseRawHeaders`
(`src/types/custom.d.ts` lines 629–646): split the line at its first
colon, trim both sides, strip quote characters from the key, then
discard keys containing a space, starting with `:`, or empty. -/
def colonStep (hs : Rec) (line : Str) : Rec :=
  match idxOf ':' line with
  | none => hs
  | some i =>
    let key0 := trimJS (line.take i)
    let value := trimJS (line.drop (i + 1))
    let key := key0.filter (fun c => !(c = '\'' || c = '"'))
    if ' ' ∈ key then hs
    else if startsWithColon key = true ∨ key = [] then hs
    else jsSet hs key value

/-- The alternating-line loop of `parseRawHeaders`
(`src/types/custom.d.ts` lines 650–663): consume lines in (key, value)
pairs; the final unpaired line, if any, is dropped by the
`i + 1 >= lines.length` break. -/
def pairLoop : List Str → Rec → Rec
  | k :: v :: rest, hs =>
    let key0 := trimJS k
    let value := trimJS v
    let key := key0.filter (fun c => !(c = '\'' || c = '"'))
    if ' ' ∈ key ∨ startsWithColon key = true ∨ key = [] then pairLoop rest hs
    else pairLoop rest (jsSet hs key value)
  | _, hs => hs

/-- `parseRawHeaders` (`src/types/custom.d.ts` lines 621–666): split the
raw text into trimmed non-empty lines; if any line contains `:` use the
colon form, otherwise consume the lines in alternating (key, value)
pairs. -/
def parseRawHeaders (raw : Str) : Rec :=
  let lines := ((splitOnChar '\n' raw).map trimJS).filter (fun l => !l.isEmpty)
  let hasColons := lines.any (fun l => l.contains ':')
  if hasColons then lines.foldl colonStep []
  else pairLoop lines []

/-- `processHeaders` (`src/types/custom.d.ts` lines 711–739).  The JS
function copies `headers` (spread), finds the first key whose lower
case is `cookie`, parses its value with the raw-cookie grammar,
`Object.assign`s the parsed pairs into the `cookies` argument (thereby
mutating it, with the parsed pairs overwriting on collision) and
deletes that header; it then deletes the first key whose lower case is
`accept-encoding`.  The mutation of `cookies` is made explicit here by
returning the post-call state of the cookie mapping as the second
component. -/
def processHeaders (headers cookies : Rec) : Rec × Rec :=
  let afterCookie : Rec × Rec :=
    match (keysOf headers).find? (fun k => decide (lowerJS k = cookieName)) with
    | some cookieKey =>
      let rawCookie := (jsGet headers cookieKey).getD []
      let extracted := parseCookieString rawCookie
      (jsDelete headers cookieKey, objAssign cookies extracted)
    | none => (headers, cookies)
  let ph := afterCookie.fst
  let ph2 :=
    match (keysOf ph).find? (fun k => decide (lowerJS k = encName)) with
    | some encodingKey => jsDelete ph encodingKey
    | none => ph
  (ph2, afterCookie.snd)

/-- The navigator-identity patch decision of the Playwright
`preNavigationHooks` (`src/types/custom.d.ts` lines 757–770): when the
reconciled headers are non-empty and contain a key whose lower case is
`user-agent`, an init script is installed that makes
`navigator.userAgent` report that header's value; the result is the
user-agent string installed by the init script, or `none` when no patch
is installed. -/
def navigatorPatch (jsonHeaders cookiesObj : Rec) : Option Str :=
  let saneHeaders := (processHeaders jsonHeaders cookiesObj).fst
  if (keysOf saneHeaders).length > 0 then
    match (keysOf saneHeaders).find? (fun k => decide (lowerJS k = uaName)) with
    | some uaKey => some ((jsGet saneHeaders uaKey).getD [])
    | none => none
  else none

/-- The link-collection loop of the `extractLinks` request handler
(`src/types/custom.d.ts` lines 834–844): for each anchor's `href`
attribute value, a falsy (empty) value is skipped; otherwise
`new URL(href, request.url)` is attempted and a failed resolution is
silently skipped.  URL resolution itself is performed by the WHATWG
`URL` built-in, abstracted as the `resolve` parameter. -/
def collectLinks (resolve : Str → Str → Option Str) (base : Str)
    (hrefs : List Str) : List Str :=
  hrefs.foldl
    (fun links href =>
      if href.isEmpty then links
      else
        match resolve href base with
        | some u => links ++ [u]
        | none => links)
    []

/-- Order-preserving deduplication, keeping the first occurrence: the
semantics of `[...new Set(xs)]` (`src/types/custom.d.ts` line 855). -/
def dedupFirstAux (seen : List Str) : List Str → List Str
  | [] => []
  | x :: xs =>
    if x ∈ seen then dedupFirstAux seen xs
    else x :: dedupFirstAux (x :: seen) xs

/-- `[...new Set(xs)]`. -/
def dedupFirst (l : List Str) : List Str := dedupFirstAux [] l

/-- The `links` field returned by `extractLinks` for a single fetched
page (`src/types/custom.d.ts` lines 831–855): the deduplicated sequence
of successfully resolved non-empty hrefs. -/
def extractLinksResult (resolve : Str → Str → Option Str) (base : Str)
    (hrefs : List Str) : List Str :=
  dedupFirst (collectLinks resolve base hrefs)

/-- The observable outcome of attempting the fetch for one input item:
either a result record is pushed to `returnData` (abstracted by an
identifier) or an error is thrown. -/
inductive FetchOutcome where
  | success (r : Nat)
  | failure (e : Nat)
deriving DecidableEq

/-- The per-item parameters read by `execute`, together with the
outcome the item's fetch would have if attempted. -/
structure ItemSpec where
  operation : Str
  fetch : FetchOutcome

/-- The three operation values recognised by the `if`/`else if` chain of
`execute` (`src/types/custom.d.ts` lines 741, 866, 974). -/
def knownOps : List Str :=
  ["extractLinks".data, "extractText".data, "extractHtml".data]

/-- Result of the `execute` loop: a completed batch output, an error
re-raised to the host with the originating item index, or fuel
exhaustion (the loop still running). -/
inductive ExecResult where
  | done (out : List Nat)
  | raised (e : Nat) (itemIndex : Nat)
  | outOfFuel
deriving DecidableEq

/-- The item loop of `execute` (`src/types/custom.d.ts` lines
1082–1094 for the catch clause): items are processed sequentially by
index while `itemIndex < items.length`; an unknown operation value
falls through the `if`/`else if` chain and does nothing; a successful
fetch appends its record to `returnData`; a failing fetch either — with
continue-on-fail — pushes an error record onto the mutable *input*
`items` array (growing the loop bound by one and appending nothing to
`returnData`) or is re-raised with the item index.  `params` models
`getNodeParameter` as a function of the item index. -/
def executeLoop (cof : Bool) (params : Nat → ItemSpec) :
    Nat → Nat → Nat → List Nat → ExecResult
  | fuel, idx, len, acc =>
    if idx < len then
      match fuel with
      | 0 => .outOfFuel
      | fuel + 1 =>
        let it := params idx
        if it.operation ∈ knownOps then
          match it.fetch with
          | .success r => executeLoop cof params fuel (idx + 1) len (acc ++ [r])
          | .failure e =>
            if cof then executeLoop cof params fuel (idx + 1) (len + 1) acc
            else .raised e idx
        else executeLoop cof params fuel (idx + 1) len acc
    else .done acc

/-- `execute` on a batch of `n` input items: run the loop from index 0
with an empty `returnData`. -/
def executeModel (cof : Bool) (params : Nat → ItemSpec) (n fuel : Nat) :
    ExecResult :=
  executeLoop cof params fuel 0 n []

/-! Builders used to state the raw-text grammar claims: raw inputs are
assembled from key/value pairs with arbitrary whitespace and quote
decorations so the theorems quantify over whole families of raw
strings. -/

/-- `n` space characters. -/
def spacesN (n : Nat) : Str := List.replicate n ' '

/-- Optionally wrap a key in double quotes. -/
def quoteWrap : Bool → Str → Str
  | true, k => '"' :: (k ++ ['"'])
  | false, k => k

/-- One colon-form header line, with `d.1` leading spaces, `d.2.1`
spaces between the (optionally quoted) key and the colon, and the raw
value text after the colon. -/
def decoKeyLine (d : Nat × Nat × Bool) (k v : Str) : Str :=
  spacesN d.1 ++ quoteWrap d.2.2 k ++ spacesN d.2.1 ++ ':' :: v

/-- Join segments with a single-character separator (inverse of a JS
`split` that produced no empty segments). -/
def joinSep (sep : Char) : List Str → Str
  | [] => []
  | s :: rest =>
    match rest with
    | [] => s
    | _ :: _ => s ++ sep :: joinSep sep rest

/-- Alternating-line layout: each pair contributes a key line
(optionally quote-wrapped) followed by a value line. -/
def interleaveQ : List ((Str × Str) × Bool) → List Str
  | [] => []
  | (p, q) :: rest => quoteWrap q p.1 :: p.2 :: interleaveQ rest

/-- One decorated cookie segment: spaces, `key=value`, spaces. -/
def cookieSeg (d : Nat × Nat) (k v : Str) : Str :=
  spacesN d.1 ++ (k ++ '=' :: v) ++ spacesN d.2

/-- The shape a decorated colon-form line has after the line-level
`trim` of `parseRawHeaders`. -/
def trimLine (d : Nat × Nat × Bool) (k v : Str) : Str :=
  quoteWrap d.2.2 k ++ spacesN d.2.1 ++ ':' :: dropRightWS v

/-- A well-formed header key: non-empty, and free of whitespace, colon
and quote characters.  These are exactly the keys that survive the
validation performed by `parseRawHeaders` unchanged. -/
def goodKey (k : Str) : Prop :=
  k ≠ [] ∧ ∀ c ∈ k, isWS c = false ∧ c ≠ ':' ∧ c ≠ '"' ∧ c ≠ '\''

instance (k : Str) : Decidable (goodKey k) :=
  inferInstanceAs (Decidable (k ≠ [] ∧ ∀ c ∈ k,
    isWS c = false ∧ c ≠ ':' ∧ c ≠ '"' ∧ c ≠ '\''))

/-- Conditions on one alternating-form entry: a well-formed key, and an
already-trimmed, non-empty, colon-free and newline-free value line. -/
def goodAltEntry (e : (Str × Str) × Bool) : Prop :=
  goodKey e.1.1 ∧ e.1.2 ≠ [] ∧ trimJS e.1.2 = e.1.2 ∧ ':' ∉ e.1.2
    ∧ '\n' ∉ e.1.2

instance (e : (Str × Str) × Bool) : Decidable (goodAltEntry e) :=
  inferInstanceAs (Decidable (goodKey e.1.1 ∧ e.1.2 ≠ []
    ∧ trimJS e.1.2 = e.1.2 ∧ ':' ∉ e.1.2 ∧ '\n' ∉ e.1.2))

/-- A well-formed raw-cookie key: non-empty, free of `;` and `=`, with
no leading or trailing whitespace (the parser trims segments but not
the key/value split, so edge whitespace in the key would be kept). -/
def goodCookieKey (k : Str) : Prop :=
  k ≠ [] ∧ ';' ∉ k ∧ '=' ∉ k ∧ k.dropWhile isWS = k ∧ dropRightWS k = k

instance (k : Str) : Decidable (goodCookieKey k) :=
  inferInstanceAs (Decidable (k ≠ [] ∧ ';' ∉ k ∧ '=' ∉ k
    ∧ k.dropWhile isWS = k ∧ dropRightWS k = k))

/-- A well-formed raw-cookie value: free of `;`, with no trailing
whitespace (leading whitespace after `=` is preserved by the parser). -/
def goodCookieVal (v : Str) : Prop := ';' ∉ v ∧ dropRightWS v = v

instance (v : Str) : Decidable (goodCookieVal v) :=
  inferInstanceAs (Decidable (';' ∉ v ∧ dropRightWS v = v))

/-! ### Basic lemmas about the string primitives -/

theorem dropWhile_eq_nil_of_all {p : Char → Bool} {a : Str}
    (h : ∀ c ∈ a, p c = true) : a.dropWhile p = [] := by
  induction a with
  | nil => rfl
  | cons c t ih =>
    simp only [List.dropWhile_cons, h c (by simp), if_true]
    exact ih fun x hx => h x (by simp [hx])

theorem dropWhile_append_of_all {p : Char → Bool} {a b : Str}
    (h : ∀ c ∈ a, p c = true) :
    (a ++ b).dropWhile p = b.dropWhile p := by
  rw [List.dropWhile_append, dropWhile_eq_nil_of_all h]
  simp

theorem dropWhile_cons_neg {p : Char → Bool} {c : Char} {t : Str}
    (h : p c = false) : (c :: t).dropWhile p = c :: t := by
  simp [List.dropWhile_cons, h]

theorem dropWhile_eq_self_of_all_neg {p : Char → Bool} {s : Str}
    (h : ∀ c ∈ s, p c = false) : s.dropWhile p = s := by
  cases s with
  | nil => rfl
  | cons c t => exact dropWhile_cons_neg (h c (by simp))

theorem dropWhile_head_neg' {p : Char → Bool} :
    ∀ {l : Str} {c : Char} {t : Str}, l.dropWhile p = c :: t → p c = false := by
  intro l
  induction l with
  | nil => intro c t h; simp at h
  | cons a l ih =>
    intro c t h
    by_cases ha : p a = true
    · rw [List.dropWhile_cons, if_pos ha] at h
      exact ih h
    · rw [List.dropWhile_cons, if_neg ha] at h
      cases h
      simpa using ha

theorem head_neg_of_dropWhile_eq_self {p : Char → Bool} {c : Char} {t : Str}
    (h : (c :: t).dropWhile p = c :: t) : p c = false :=
  dropWhile_head_neg' h

theorem dropRightWS_nil : dropRightWS [] = [] := rfl

theorem dropRightWS_append_ws {a b : Str} (h : ∀ c ∈ b, isWS c = true) :
    dropRightWS (a ++ b) = dropRightWS a := by
  unfold dropRightWS
  rw [List.reverse_append, dropWhile_append_of_all (by simp_all)]

theorem dropRightWS_append_cons {a v : Str} {c : Char} (h : isWS c = false) :
    dropRightWS (a ++ c :: v) = a ++ c :: dropRightWS v := by
  unfold dropRightWS
  have hrev : (a ++ c :: v).reverse = v.reverse ++ c :: a.reverse := by simp
  rw [hrev, List.dropWhile_append]
  by_cases hv : v.reverse.dropWhile isWS = []
  · simp [hv, List.dropWhile_cons, h]
  · simp [hv, List.dropWhile_cons, h]

theorem dropRightWS_eq_self_of_all_neg {s : Str}
    (h : ∀ c ∈ s, isWS c = false) : dropRightWS s = s := by
  unfold dropRightWS
  rw [dropWhile_eq_self_of_all_neg (by simp_all)]
  simp

theorem dropRightWS_idem (s : Str) :
    dropRightWS (dropRightWS s) = dropRightWS s := by
  unfold dropRightWS
  rw [List.reverse_reverse]
  cases hd : s.reverse.dropWhile isWS with
  | nil => rfl
  | cons c t => rw [dropWhile_cons_neg (dropWhile_head_neg' hd)]

theorem trimJS_eq_self_of_all_neg {s : Str}
    (h : ∀ c ∈ s, isWS c = false) : trimJS s = s := by
  unfold trimJS
  rw [dropRightWS_eq_self_of_all_neg h, dropWhile_eq_self_of_all_neg h]

theorem dropWhile_append_eq_self {p : Char → Bool} {x rest : Str}
    (hne : x ≠ []) (h : ∀ c ∈ x, p c = false) :
    (x ++ rest).dropWhile p = x ++ rest := by
  cases x with
  | nil => exact absurd rfl hne
  | cons c t =>
    rw [List.cons_append]
    exact dropWhile_cons_neg (h c (by simp))

theorem splitOnChar_of_not_mem {sep : Char} :
    ∀ {s : Str}, sep ∉ s → splitOnChar sep s = [s] := by
  intro s
  induction s with
  | nil => intro _; rfl
  | cons c cs ih =>
    intro h
    have hc : ¬(c = sep) := fun e => h (by simp [e])
    have ih' := ih fun m => h (List.mem_cons_of_mem _ m)
    simp only [splitOnChar, ih']
    rw [if_neg hc]

theorem splitOnChar_append {sep : Char} {b : Str} :
    ∀ {a : Str}, sep ∉ a →
      splitOnChar sep (a ++ sep :: b) = a :: splitOnChar sep b := by
  intro a
  induction a with
  | nil =>
    intro _
    simp [splitOnChar]
  | cons c cs ih =>
    intro h
    have hc : ¬(c = sep) := fun e => h (by simp [e])
    have ih' := ih fun m => h (List.mem_cons_of_mem _ m)
    simp only [List.cons_append, splitOnChar, List.append_eq, ih']
    rw [if_neg hc]

theorem joinSep_pair (sep : Char) (s r : Str) (rest : List Str) :
    joinSep sep (s :: r :: rest) = s ++ sep :: joinSep sep (r :: rest) := rfl

theorem splitOnChar_joinSep {sep : Char} :
    ∀ {segs : List Str}, segs ≠ [] → (∀ s ∈ segs, sep ∉ s) →
      splitOnChar sep (joinSep sep segs) = segs := by
  intro segs
  induction segs with
  | nil => intro h _; exact absurd rfl h
  | cons s rest ih =>
    intro _ hfree
    cases rest with
    | nil =>
      show splitOnChar sep (joinSep sep [s]) = [s]
      exact splitOnChar_of_not_mem (hfree s (by simp))
    | cons r rest' =>
      rw [joinSep_pair, splitOnChar_append (hfree s (by simp))]
      rw [ih (by simp) fun x hx => hfree x (List.mem_cons_of_mem _ hx)]

theorem idxOf_append {t : Char} {b : Str} :
    ∀ {a : Str}, t ∉ a → idxOf t (a ++ t :: b) = some a.length := by
  intro a
  induction a with
  | nil =>
    intro _
    simp [idxOf]
  | cons c cs ih =>
    intro h
    have hc : ¬(c = t) := fun e => h (by simp [e])
    have ih' := ih fun m => h (List.mem_cons_of_mem _ m)
    simp [idxOf, hc, ih']

theorem spacesN_all_ws {n : Nat} : ∀ c ∈ spacesN n, isWS c = true := by
  intro c hc
  rw [List.eq_of_mem_replicate hc]
  decide

theorem length_spacesN (n : Nat) : (spacesN n).length = n :=
  List.length_replicate n ' '

theorem quoteWrap_ne_nil {q : Bool} {k : Str} (h : k ≠ []) :
    quoteWrap q k ≠ [] := by
  cases q
  · exact h
  · simp [quoteWrap]

theorem quoteWrap_all {q : Bool} {k : Str} (hk : goodKey k) :
    ∀ c ∈ quoteWrap q k, isWS c = false ∧ c ≠ ':' := by
  intro c hc
  cases q
  · exact ⟨(hk.2 c hc).1, (hk.2 c hc).2.1⟩
  · simp only [quoteWrap, List.mem_cons, List.mem_append] at hc
    rcases hc with h | h | h
    · subst h; exact ⟨by decide, by decide⟩
    · exact ⟨(hk.2 c h).1, (hk.2 c h).2.1⟩
    · simp at h; subst h; exact ⟨by decide, by decide⟩

theorem quoteWrap_filter {q : Bool} {k : Str} (hk : goodKey k) :
    (quoteWrap q k).filter (fun c => !(c = '\'' || c = '"')) = k := by
  have hself : k.filter (fun c => !(c = '\'' || c = '"')) = k := by
    rw [List.filter_eq_self]
    intro c hc
    simp [(hk.2 c hc).2.2.1, (hk.2 c hc).2.2.2]
  cases q
  · exact hself
  · simp [quoteWrap, List.filter_append, hself]
    exact fun c hc => ⟨(hk.2 c hc).2.2.2, (hk.2 c hc).2.2.1⟩

theorem goodKey_no_space {k : Str} (hk : goodKey k) : ' ' ∉ k := by
  intro m
  exact absurd (hk.2 ' ' m).1 (by decide)

theorem goodKey_not_startsWithColon {k : Str} (hk : goodKey k) :
    startsWithColon k = false := by
  cases k with
  | nil => rfl
  | cons c t =>
    have : c ≠ ':' := (hk.2 c (by simp)).2.1
    simp [startsWithColon, this]

theorem trimJS_dropRightWS (v : Str) :
    trimJS (dropRightWS v) = trimJS v := by
  unfold trimJS
  rw [dropRightWS_idem]

theorem trimJS_decoKeyLine {n1 n2 : Nat} {q : Bool} {k v : Str}
    (hk : goodKey k) :
    trimJS (decoKeyLine (n1, n2, q) k v)
      = quoteWrap q k ++ spacesN n2 ++ ':' :: dropRightWS v := by
  unfold decoKeyLine trimJS
  have h1 : spacesN n1 ++ quoteWrap q k ++ spacesN n2 ++ ':' :: v
      = (spacesN n1 ++ quoteWrap q k ++ spacesN n2) ++ ':' :: v := by simp
  rw [h1, dropRightWS_append_cons (by decide)]
  have h2 : (spacesN n1 ++ quoteWrap q k ++ spacesN n2) ++ ':' :: dropRightWS v
      = spacesN n1 ++ (quoteWrap q k ++ (spacesN n2 ++ ':' :: dropRightWS v)) := by
    simp
  rw [h2, dropWhile_append_of_all spacesN_all_ws,
    dropWhile_append_eq_self (quoteWrap_ne_nil hk.1)
      (fun c hc => (quoteWrap_all hk c hc).1)]
  simp

theorem trimJS_quoteWrap_spaces {q : Bool} {n : Nat} {k : Str}
    (hk : goodKey k) :
    trimJS (quoteWrap q k ++ spacesN n) = quoteWrap q k := by
  unfold trimJS
  rw [dropRightWS_append_ws spacesN_all_ws,
    dropRightWS_eq_self_of_all_neg (fun c hc => (quoteWrap_all hk c hc).1),
    dropWhile_eq_self_of_all_neg (fun c hc => (quoteWrap_all hk c hc).1)]

theorem colonStep_key {hs : Rec} {q : Bool} {n2 : Nat} {k v : Str}
    (hk : goodKey k) :
    colonStep hs (quoteWrap q k ++ spacesN n2 ++ ':' :: dropRightWS v)
      = jsSet hs k (trimJS v) := by
  have hnc : ':' ∉ quoteWrap q k ++ spacesN n2 := by
    intro m
    rcases List.mem_append.mp m with h | h
    · exact absurd rfl (quoteWrap_all hk ':' h).2
    · have := List.eq_of_mem_replicate h
      simp at this
  have hassoc : quoteWrap q k ++ spacesN n2 ++ ':' :: dropRightWS v
      = (quoteWrap q k ++ spacesN n2) ++ ':' :: dropRightWS v := by simp
  unfold colonStep
  rw [hassoc, idxOf_append hnc]
  simp only
  rw [List.take_left]
  have hdrop : ((quoteWrap q k ++ spacesN n2) ++ ':' :: dropRightWS v).drop
      ((quoteWrap q k ++ spacesN n2).length + 1) = dropRightWS v := by
    have e1 : (quoteWrap q k ++ spacesN n2) ++ ':' :: dropRightWS v
        = ((quoteWrap q k ++ spacesN n2) ++ [':']) ++ dropRightWS v := by simp
    have e2 : (quoteWrap q k ++ spacesN n2).length + 1
        = ((quoteWrap q k ++ spacesN n2) ++ [':']).length := by
      simp only [List.length_append, List.length_cons, List.length_nil]
    rw [e1, e2, List.drop_left]
  rw [hdrop, trimJS_quoteWrap_spaces hk, trimJS_dropRightWS,
    quoteWrap_filter hk]
  rw [if_neg (goodKey_no_space hk)]
  rw [if_neg (by simp [goodKey_not_startsWithColon hk, hk.1])]

theorem decoKeyLine_no_nl {d : Nat × Nat × Bool} {k v : Str}
    (hk : goodKey k) (hv : '\n' ∉ v) : '\n' ∉ decoKeyLine d k v := by
  obtain ⟨n1, n2, q⟩ := d
  intro m
  unfold decoKeyLine at m
  rcases List.mem_append.mp m with h | h
  · rcases List.mem_append.mp h with h2 | h2
    · rcases List.mem_append.mp h2 with h3 | h3
      · exact absurd (List.eq_of_mem_replicate h3) (by decide)
      · exact absurd (quoteWrap_all hk '\n' h3).1 (by decide)
    · exact absurd (List.eq_of_mem_replicate h2) (by decide)
  · rcases List.mem_cons.mp h with h4 | h4
    · exact absurd h4 (by decide)
    · exact hv h4

theorem map_trimJS_deco :
    ∀ (ps : List (Str × Str)) (ds : List (Nat × Nat × Bool)),
      (∀ p ∈ ps, goodKey p.1) →
      (List.zipWith (fun p d => decoKeyLine d p.1 p.2) ps ds).map trimJS
        = List.zipWith (fun p d => trimLine d p.1 p.2) ps ds := by
  intro ps
  induction ps with
  | nil => intro ds _; simp
  | cons p ps' ih =>
    intro ds hk
    cases ds with
    | nil => simp
    | cons d ds' =>
      obtain ⟨n1, n2, q⟩ := d
      simp only [List.zipWith_cons_cons, List.map_cons]
      rw [trimJS_decoKeyLine (hk p (by simp)),
        ih ds' fun x hx => hk x (List.mem_cons_of_mem _ hx)]
      rfl

theorem trimLine_ne_nil {d : Nat × Nat × Bool} {k v : Str} :
    trimLine d k v ≠ [] := by
  unfold trimLine
  intro h
  have := congrArg List.length h
  simp at this

theorem filter_nonempty_trimLines :
    ∀ (ps : List (Str × Str)) (ds : List (Nat × Nat × Bool)),
      (List.zipWith (fun p d => trimLine d p.1 p.2) ps ds).filter
          (fun l => !l.isEmpty)
        = List.zipWith (fun p d => trimLine d p.1 p.2) ps ds := by
  intro ps
  induction ps with
  | nil => intro ds; simp
  | cons p ps' ih =>
    intro ds
    cases ds with
    | nil => simp
    | cons d ds' =>
      simp only [List.zipWith_cons_cons, List.filter_cons]
      rw [if_pos (by simp [trimLine_ne_nil]), ih ds']

theorem trimLine_contains_colon {d : Nat × Nat × Bool} {k v : Str} :
    (trimLine d k v).contains ':' = true := by
  unfold trimLine
  simp [List.contains, List.elem_iff]

theorem foldl_colonStep_trimLines :
    ∀ (ps : List (Str × Str)) (ds : List (Nat × Nat × Bool)) (hs : Rec),
      ds.length = ps.length → (∀ p ∈ ps, goodKey p.1) →
      (List.zipWith (fun p d => trimLine d p.1 p.2) ps ds).foldl colonStep hs
        = ps.foldl (fun m p => jsSet m p.1 (trimJS p.2)) hs := by
  intro ps
  induction ps with
  | nil => intro ds hs _ _; simp
  | cons p ps' ih =>
    intro ds hs hlen hk
    cases ds with
    | nil => simp at hlen
    | cons d ds' =>
      simp only [List.zipWith_cons_cons, List.foldl_cons]
      rw [show colonStep hs (trimLine d p.1 p.2) = jsSet hs p.1 (trimJS p.2) from
        colonStep_key (hk p (by simp))]
      exact ih ds' _ (by simpa using hlen) fun x hx => hk x (List.mem_cons_of_mem _ hx)

theorem parseRawHeaders_eq (raw : Str) :
    parseRawHeaders raw =
      if (((splitOnChar '\n' raw).map trimJS).filter (fun l => !l.isEmpty)).any
          (fun l => l.contains ':') then
        (((splitOnChar '\n' raw).map trimJS).filter (fun l => !l.isEmpty)).foldl
          colonStep []
      else
        pairLoop (((splitOnChar '\n' raw).map trimJS).filter (fun l => !l.isEmpty))
          [] := rfl

theorem mem_zipWith_deco :
    ∀ (ps : List (Str × Str)) (ds : List (Nat × Nat × Bool)) (l : Str),
      l ∈ List.zipWith (fun p d => decoKeyLine d p.1 p.2) ps ds →
      ∃ p d, p ∈ ps ∧ l = decoKeyLine d p.1 p.2 := by
  intro ps
  induction ps with
  | nil => intro ds l h; simp at h
  | cons p ps' ih =>
    intro ds l h
    cases ds with
    | nil => simp at h
    | cons d ds' =>
      simp only [List.zipWith_cons_cons, List.mem_cons] at h
      rcases h with h | h
      · exact ⟨p, d, by simp, h⟩
      · obtain ⟨p', d', hp', he⟩ := ih ds' l h
        exact ⟨p', d', List.mem_cons_of_mem _ hp', he⟩

theorem parseRawHeaders_colon_general
    (ps : List (Str × Str)) (ds : List (Nat × Nat × Bool))
    (hne : ps ≠ []) (hlen : ds.length = ps.length)
    (hkeys : ∀ p ∈ ps, goodKey p.1) (hvals : ∀ p ∈ ps, '\n' ∉ p.2) :
    parseRawHeaders (joinSep '\n'
        (List.zipWith (fun p d => decoKeyLine d p.1 p.2) ps ds))
      = ps.foldl (fun m p => jsSet m p.1 (trimJS p.2)) [] := by
  have hLne : List.zipWith (fun p d => decoKeyLine d p.1 p.2) ps ds ≠ [] := by
    cases ps with
    | nil => exact absurd rfl hne
    | cons p ps' =>
      cases ds with
      | nil => simp at hlen
      | cons d ds' => simp
  have hLfree : ∀ l ∈ List.zipWith (fun p d => decoKeyLine d p.1 p.2) ps ds,
      '\n' ∉ l := by
    intro l hl
    obtain ⟨p', d', hp', he⟩ := mem_zipWith_deco ps ds l hl
    rw [he]
    exact decoKeyLine_no_nl (hkeys p' hp') (hvals p' hp')
  rw [parseRawHeaders_eq, splitOnChar_joinSep hLne hLfree,
    map_trimJS_deco ps ds hkeys, filter_nonempty_trimLines ps ds]
  have hany : (List.zipWith (fun p d => trimLine d p.1 p.2) ps ds).any
      (fun l => l.contains ':') = true := by
    cases ps with
    | nil => exact absurd rfl hne
    | cons p ps' =>
      cases ds with
      | nil => simp at hlen
      | cons d ds' =>
        simp only [List.zipWith_cons_cons, List.any_cons]
        rw [trimLine_contains_colon]
        simp
  rw [if_pos hany]
  exact foldl_colonStep_trimLines ps ds [] hlen hkeys

theorem zipWith_replicate_deco :
    ∀ ps : List (Str × Str),
      List.zipWith (fun p d => decoKeyLine d p.1 p.2) ps
          (List.replicate ps.length (0, 0, false))
        = ps.map (fun p => p.1 ++ ':' :: p.2) := by
  intro ps
  induction ps with
  | nil => rfl
  | cons p ps' ih =>
    simp only [List.length_cons, List.replicate_succ, List.zipWith_cons_cons,
      List.map_cons, ih]
    simp [decoKeyLine, spacesN, quoteWrap]

/-! ### Lemmas for the alternating-line grammar -/

theorem mem_of_mem_dropWhile {p : Char → Bool} {c : Char} :
    ∀ {l : Str}, c ∈ l.dropWhile p → c ∈ l := by
  intro l
  induction l with
  | nil => intro h; simp at h
  | cons a t ih =>
    intro h
    rw [List.dropWhile_cons] at h
    by_cases ha : p a = true
    · rw [if_pos ha] at h
      exact List.mem_cons_of_mem _ (ih h)
    · rw [if_neg ha] at h
      exact h

theorem mem_of_mem_dropRightWS {c : Char} {s : Str}
    (h : c ∈ dropRightWS s) : c ∈ s := by
  unfold dropRightWS at h
  rw [List.mem_reverse] at h
  exact List.mem_reverse.mp (mem_of_mem_dropWhile h)

theorem mem_of_mem_trimJS {c : Char} {s : Str} (h : c ∈ trimJS s) : c ∈ s := by
  unfold trimJS at h
  exact mem_of_mem_dropRightWS (mem_of_mem_dropWhile h)

theorem contains_eq_false_of_not_mem {l : Str} {c : Char} (h : c ∉ l) :
    l.contains c = false := by
  cases hc : l.contains c
  · rfl
  · exact absurd (List.elem_iff.mp hc) h

theorem mem_interleaveQ :
    ∀ (z : List ((Str × Str) × Bool)) (l : Str), l ∈ interleaveQ z →
      ∃ e, e ∈ z ∧ (l = quoteWrap e.2 e.1.1 ∨ l = e.1.2) := by
  intro z
  induction z with
  | nil => intro l h; simp [interleaveQ] at h
  | cons e z' ih =>
    intro l h
    obtain ⟨p, q⟩ := e
    simp only [interleaveQ, List.mem_cons] at h
    rcases h with h | h | h
    · exact ⟨(p, q), by simp, Or.inl h⟩
    · exact ⟨(p, q), by simp, Or.inr h⟩
    · obtain ⟨e', he', hl⟩ := ih l h
      exact ⟨e', List.mem_cons_of_mem _ he', hl⟩

theorem map_trimJS_interleaveQ :
    ∀ z : List ((Str × Str) × Bool), (∀ e ∈ z, goodAltEntry e) →
      (interleaveQ z).map trimJS = interleaveQ z := by
  intro z
  induction z with
  | nil => intro _; rfl
  | cons e z' ih =>
    intro hz
    obtain ⟨p, q⟩ := e
    obtain ⟨hk, _, htrim, _, _⟩ := hz (p, q) (by simp)
    simp only [interleaveQ, List.map_cons]
    rw [trimJS_eq_self_of_all_neg fun c hc => (quoteWrap_all hk c hc).1, htrim,
      ih fun x hx => hz x (List.mem_cons_of_mem _ hx)]

theorem filter_interleaveQ :
    ∀ z : List ((Str × Str) × Bool), (∀ e ∈ z, goodAltEntry e) →
      (interleaveQ z).filter (fun l => !l.isEmpty) = interleaveQ z := by
  intro z
  induction z with
  | nil => intro _; rfl
  | cons e z' ih =>
    intro hz
    obtain ⟨p, q⟩ := e
    obtain ⟨hk, hvne, _, _, _⟩ := hz (p, q) (by simp)
    simp only [interleaveQ, List.filter_cons]
    rw [if_pos (by simp [quoteWrap_ne_nil hk.1]), if_pos (by simp [hvne]),
      ih fun x hx => hz x (List.mem_cons_of_mem _ hx)]

theorem pairLoop_cons_cons (k v : Str) (rest : List Str) (hs : Rec) :
    pairLoop (k :: v :: rest) hs =
      if ' ' ∈ (trimJS k).filter (fun c => !(c = '\'' || c = '"'))
          ∨ startsWithColon ((trimJS k).filter (fun c => !(c = '\'' || c = '"')))
              = true
          ∨ (trimJS k).filter (fun c => !(c = '\'' || c = '"')) = [] then
        pairLoop rest hs
      else
        pairLoop rest
          (jsSet hs ((trimJS k).filter (fun c => !(c = '\'' || c = '"')))
            (trimJS v)) := rfl

theorem pairLoop_interleaveQ :
    ∀ (z : List ((Str × Str) × Bool)) (rest : List Str) (hs : Rec),
      (∀ e ∈ z, goodAltEntry e) →
      pairLoop (interleaveQ z ++ rest) hs
        = pairLoop rest (z.foldl (fun m e => jsSet m e.1.1 e.1.2) hs) := by
  intro z
  induction z with
  | nil => intro rest hs _; rfl
  | cons e z' ih =>
    intro rest hs hz
    obtain ⟨p, q⟩ := e
    obtain ⟨hk, _, htrim, _, _⟩ := hz (p, q) (by simp)
    show pairLoop (quoteWrap q p.1 :: p.2 :: (interleaveQ z' ++ rest)) hs = _
    rw [pairLoop_cons_cons,
      trimJS_eq_self_of_all_neg fun c hc => (quoteWrap_all hk c hc).1,
      quoteWrap_filter hk]
    rw [if_neg (by
      simp [goodKey_no_space hk, goodKey_not_startsWithColon hk, hk.1])]
    rw [htrim, ih rest _ fun x hx => hz x (List.mem_cons_of_mem _ hx)]
    rfl

theorem parseRawHeaders_single_no_colon {x : Str}
    (hnl : '\n' ∉ x) (hx : ':' ∉ x) : parseRawHeaders x = [] := by
  have hc : (trimJS x).contains ':' = false :=
    contains_eq_false_of_not_mem fun m => hx (mem_of_mem_trimJS m)
  have hsplit : ((splitOnChar '\n' x).map trimJS).filter (fun l => !l.isEmpty)
      = ([trimJS x]).filter fun l => !l.isEmpty := by
    rw [splitOnChar_of_not_mem hnl]
    rfl
  rw [parseRawHeaders_eq, hsplit]
  cases he : (trimJS x).isEmpty
  · have hlines : ([trimJS x]).filter (fun l => !l.isEmpty) = [trimJS x] := by
      rw [List.filter_cons, if_pos (by simp [he]), List.filter_nil]
    rw [hlines]
    have hany1 : (([trimJS x]).any fun l => l.contains ':') = false := by
      rw [List.any_cons, hc]
      rfl
    rw [if_neg (by rw [hany1]; simp)]
    rfl
  · have hlines : ([trimJS x]).filter (fun l => !l.isEmpty) = [] := by
      rw [List.filter_cons, if_neg (by simp [he]), List.filter_nil]
    rw [hlines]
    rfl

theorem parseRawHeaders_alt_general
    (z : List ((Str × Str) × Bool)) (rest : List Str)
    (hz : ∀ e ∈ z, goodAltEntry e)
    (hrest : ∀ l ∈ rest, ':' ∉ l ∧ '\n' ∉ l)
    (hsmall : rest = [] ∨ ∃ x, rest = [x]) :
    parseRawHeaders (joinSep '\n' (interleaveQ z ++ rest))
      = z.foldl (fun m e => jsSet m e.1.1 e.1.2) [] := by
  rcases z with _ | ⟨e, z'⟩
  · rcases hsmall with hr | ⟨x, hr⟩
    · subst hr
      decide
    · subst hr
      show parseRawHeaders (joinSep '\n' [x]) = []
      exact parseRawHeaders_single_no_colon (hrest x (by simp)).2
        (hrest x (by simp)).1
  · have hLne : interleaveQ (e :: z') ++ rest ≠ [] := by
      obtain ⟨p, q⟩ := e
      simp [interleaveQ]
    have hfree : ∀ l ∈ interleaveQ (e :: z') ++ rest, '\n' ∉ l := by
      intro l hl
      rcases List.mem_append.mp hl with h | h
      · obtain ⟨e', he', hcase⟩ := mem_interleaveQ _ l h
        have hge := hz e' he'
        rcases hcase with hq | hv
        · subst hq
          intro m
          exact absurd (quoteWrap_all hge.1 '\n' m).1 (by decide)
        · subst hv
          exact hge.2.2.2.2
      · exact (hrest l h).2
    rw [parseRawHeaders_eq, splitOnChar_joinSep hLne hfree, List.map_append,
      map_trimJS_interleaveQ _ hz, List.filter_append, filter_interleaveQ _ hz]
    have hanyF : ((interleaveQ (e :: z')
        ++ (rest.map trimJS).filter (fun l => !l.isEmpty)).any
          (fun l => l.contains ':')) = false := by
      rw [List.any_eq_false]
      intro l hl
      rcases List.mem_append.mp hl with h | h
      · obtain ⟨e', he', hcase⟩ := mem_interleaveQ _ l h
        have hge := hz e' he'
        rcases hcase with hq | hv
        · subst hq
          intro hcontains
          exact absurd rfl
            (quoteWrap_all hge.1 ':' (List.elem_iff.mp hcontains)).2
        · subst hv
          intro hcontains
          exact hge.2.2.2.1 (List.elem_iff.mp hcontains)
      · have hmem := List.mem_of_mem_filter h
        obtain ⟨x, hx, hlx⟩ := List.mem_map.mp hmem
        subst hlx
        intro hcontains
        exact (hrest x hx).1 (mem_of_mem_trimJS (List.elem_iff.mp hcontains))
    rw [if_neg (by rw [hanyF]; simp)]
    rw [pairLoop_interleaveQ _ ((rest.map trimJS).filter fun l => !l.isEmpty)
      [] hz]
    rcases hsmall with hr | ⟨x, hr⟩
    · subst hr
      rfl
    · subst hr
      show pairLoop (([trimJS x]).filter fun l => !l.isEmpty) _ = _
      cases he : (trimJS x).isEmpty
      · rw [List.filter_cons, if_pos (by simp [he])]
        rfl
      · rw [List.filter_cons, if_neg (by simp [he])]
        rfl

/-! ### Lemmas for the raw-cookie grammar -/

theorem mem_zipWith_exists {α β γ : Type} {f : α → β → γ} :
    ∀ (as : List α) (bs : List β) (x : γ), x ∈ List.zipWith f as bs →
      ∃ a b, a ∈ as ∧ x = f a b := by
  intro as
  induction as with
  | nil => intro bs x h; simp at h
  | cons a as' ih =>
    intro bs x h
    cases bs with
    | nil => simp at h
    | cons b bs' =>
      simp only [List.zipWith_cons_cons, List.mem_cons] at h
      rcases h with h | h
      · exact ⟨a, b, by simp, h⟩
      · obtain ⟨a', b', ha', he⟩ := ih bs' x h
        exact ⟨a', b', List.mem_cons_of_mem _ ha', he⟩

theorem dropWhile_append_cons_neg {p : Char → Bool} {c : Char} {t rest : Str}
    (h : p c = false) : ((c :: t) ++ rest).dropWhile p = (c :: t) ++ rest := by
  rw [List.cons_append]
  exact dropWhile_cons_neg h

theorem cookieSeg_no_semi {d : Nat × Nat} {k v : Str}
    (hk : ';' ∉ k) (hv : ';' ∉ v) : ';' ∉ cookieSeg d k v := by
  intro m
  unfold cookieSeg at m
  rcases List.mem_append.mp m with h | h
  · rcases List.mem_append.mp h with h2 | h2
    · exact absurd (List.eq_of_mem_replicate h2) (by decide)
    · rcases List.mem_append.mp h2 with h3 | h3
      · exact hk h3
      · rcases List.mem_cons.mp h3 with h4 | h4
        · exact absurd h4 (by decide)
        · exact hv h4
  · exact absurd (List.eq_of_mem_replicate h) (by decide)

theorem trimJS_cookieSeg {d : Nat × Nat} {k v : Str}
    (hk : goodCookieKey k) (hv : goodCookieVal v) :
    trimJS (cookieSeg d k v) = k ++ '=' :: v := by
  obtain ⟨n1, n2⟩ := d
  obtain ⟨hkne, _, _, hkl, hkr⟩ := hk
  obtain ⟨_, hvr⟩ := hv
  unfold cookieSeg trimJS
  have h1 : spacesN n1 ++ (k ++ '=' :: v) ++ spacesN n2
      = (spacesN n1 ++ (k ++ '=' :: v)) ++ spacesN n2 := by simp
  rw [h1, dropRightWS_append_ws spacesN_all_ws]
  have h2 : spacesN n1 ++ (k ++ '=' :: v) = (spacesN n1 ++ k) ++ '=' :: v := by
    simp
  rw [h2, dropRightWS_append_cons (by decide), hvr]
  have h3 : (spacesN n1 ++ k) ++ '=' :: v = spacesN n1 ++ (k ++ '=' :: v) := by
    simp
  rw [h3, dropWhile_append_of_all spacesN_all_ws]
  cases hkc : k with
  | nil => exact absurd hkc hkne
  | cons c t =>
    have hc : isWS c = false := head_neg_of_dropWhile_eq_self (hkc ▸ hkl)
    rw [dropWhile_append_cons_neg hc]

theorem cookieStep_seg {acc : Rec} {k v : Str}
    (hk : '=' ∉ k) : cookieStep acc (k ++ '=' :: v) = jsSet acc k v := by
  unfold cookieStep
  rw [idxOf_append hk]
  simp only
  rw [List.take_left]
  have e1 : k ++ '=' :: v = (k ++ ['=']) ++ v := by simp
  have e2 : k.length + 1 = (k ++ ['=']).length := by
    simp only [List.length_append, List.length_cons, List.length_nil]
  rw [e1, e2, List.drop_left]

theorem parseCookieString_eq (raw : Str) :
    parseCookieString raw =
      (((splitOnChar ';' raw).map trimJS).filter (fun c => !c.isEmpty)).foldl
        cookieStep [] := rfl

theorem map_trimJS_cookie :
    ∀ (ps : List (Str × Str)) (ds : List (Nat × Nat)),
      (∀ p ∈ ps, goodCookieKey p.1) → (∀ p ∈ ps, goodCookieVal p.2) →
      (List.zipWith (fun p d => cookieSeg d p.1 p.2) ps ds).map trimJS
        = List.zipWith (fun p (_ : Nat × Nat) => p.1 ++ '=' :: p.2) ps ds := by
  intro ps
  induction ps with
  | nil => intro ds _ _; simp
  | cons p ps' ih =>
    intro ds hk hv
    cases ds with
    | nil => simp
    | cons d ds' =>
      simp only [List.zipWith_cons_cons, List.map_cons]
      rw [trimJS_cookieSeg (hk p (by simp)) (hv p (by simp)),
        ih ds' (fun x hx => hk x (List.mem_cons_of_mem _ hx))
          fun x hx => hv x (List.mem_cons_of_mem _ hx)]

theorem filter_cookie_lines :
    ∀ (ps : List (Str × Str)) (ds : List (Nat × Nat)),
      (∀ p ∈ ps, p.1 ≠ []) →
      (List.zipWith (fun p (_ : Nat × Nat) => p.1 ++ '=' :: p.2) ps ds).filter
          (fun c => !c.isEmpty)
        = List.zipWith (fun p (_ : Nat × Nat) => p.1 ++ '=' :: p.2) ps ds := by
  intro ps
  induction ps with
  | nil => intro ds _; simp
  | cons p ps' ih =>
    intro ds hk
    cases ds with
    | nil => simp
    | cons d ds' =>
      simp only [List.zipWith_cons_cons, List.filter_cons]
      rw [if_pos (by simp), ih ds' fun x hx => hk x (List.mem_cons_of_mem _ hx)]

theorem foldl_cookieStep :
    ∀ (ps : List (Str × Str)) (ds : List (Nat × Nat)) (hs : Rec),
      ds.length = ps.length → (∀ p ∈ ps, '=' ∉ p.1) →
      (List.zipWith (fun p (_ : Nat × Nat) => p.1 ++ '=' :: p.2) ps ds).foldl
          cookieStep hs
        = ps.foldl (fun m p => jsSet m p.1 p.2) hs := by
  intro ps
  induction ps with
  | nil => intro ds hs _ _; simp
  | cons p ps' ih =>
    intro ds hs hlen hk
    cases ds with
    | nil => simp at hlen
    | cons d ds' =>
      simp only [List.zipWith_cons_cons, List.foldl_cons]
      rw [cookieStep_seg (hk p (by simp))]
      exact ih ds' _ (by simpa using hlen)
        fun x hx => hk x (List.mem_cons_of_mem _ hx)

theorem parseCookieString_general
    (ps : List (Str × Str)) (ds : List (Nat × Nat)) (trailing : Bool)
    (hne : ps ≠ []) (hlen : ds.length = ps.length)
    (hk : ∀ p ∈ ps, goodCookieKey p.1) (hv : ∀ p ∈ ps, goodCookieVal p.2) :
    parseCookieString (joinSep ';'
        (List.zipWith (fun p d => cookieSeg d p.1 p.2) ps ds
          ++ (if trailing then [[]] else [])))
      = ps.foldl (fun m p => jsSet m p.1 p.2) [] := by
  have hne' : List.zipWith (fun p d => cookieSeg d p.1 p.2) ps ds
      ++ (if trailing then [[]] else []) ≠ [] := by
    cases ps with
    | nil => exact absurd rfl hne
    | cons p ps' =>
      cases ds with
      | nil => simp at hlen
      | cons d ds' => simp
  have hfree : ∀ s ∈ List.zipWith (fun p d => cookieSeg d p.1 p.2) ps ds
      ++ (if trailing then [[]] else []), ';' ∉ s := by
    intro s hs
    rcases List.mem_append.mp hs with h | h
    · obtain ⟨p', d', hp', he⟩ := mem_zipWith_exists ps ds s h
      rw [he]
      exact cookieSeg_no_semi (hk p' hp').2.1 (hv p' hp').1
    · cases trailing with
      | true =>
        simp only [if_true] at h
        rcases List.mem_cons.mp h with h2 | h2
        · subst h2; simp
        · simp at h2
      | false => simp at h
  rw [parseCookieString_eq, splitOnChar_joinSep hne' hfree, List.map_append,
    List.filter_append, map_trimJS_cookie ps ds hk hv,
    filter_cookie_lines ps ds fun p hp => (hk p hp).1]
  have htail : ((if trailing then ([[]] : List Str) else []).map trimJS).filter
      (fun c => !c.isEmpty) = [] := by
    cases trailing <;> rfl
  rw [htail, List.append_nil]
  exact foldl_cookieStep ps ds [] hlen fun p hp => (hk p hp).2.2.1

/-! ### Lemmas about the header/cookie reconciler -/

theorem keysOf_jsDelete_not_mem {m : Rec} {k : Str} :
    k ∉ keysOf (jsDelete m k) := by
  intro h
  obtain ⟨e, he, hek⟩ := List.mem_map.mp h
  have := (List.mem_filter.mp he).2
  rw [hek] at this
  simp at this

theorem keysOf_jsDelete_subset {m : Rec} {k k' : Str}
    (h : k' ∈ keysOf (jsDelete m k)) : k' ∈ keysOf m := by
  obtain ⟨e, he, hek⟩ := List.mem_map.mp h
  exact hek ▸ List.mem_map_of_mem _ (List.mem_filter.mp he).1

theorem processHeaders_cookie_some {H C : Rec} {ck : Str}
    (h : (keysOf H).find? (fun k => decide (lowerJS k = cookieName))
        = some ck) :
    processHeaders H C =
      (match (keysOf (jsDelete H ck)).find?
          (fun k => decide (lowerJS k = encName)) with
       | some ek => jsDelete (jsDelete H ck) ek
       | none => jsDelete H ck,
       objAssign C (parseCookieString ((jsGet H ck).getD []))) := by
  unfold processHeaders
  rw [h]

theorem processHeaders_cookie_none {H C : Rec}
    (h : (keysOf H).find? (fun k => decide (lowerJS k = cookieName)) = none) :
    processHeaders H C =
      (match (keysOf H).find? (fun k => decide (lowerJS k = encName)) with
       | some ek => jsDelete H ek
       | none => H,
       C) := by
  unfold processHeaders
  rw [h]

theorem two_distinct_countP {p : Str → Bool} :
    ∀ {l : List Str} {a b : Str}, a ∈ l → b ∈ l → a ≠ b →
      p a = true → p b = true → 2 ≤ l.countP p := by
  intro l
  induction l with
  | nil => intro a b ha _ _ _ _; simp at ha
  | cons x t ih =>
    intro a b ha hb hne hpa hpb
    rw [List.countP_cons]
    rcases List.mem_cons.mp ha with hax | hat
    · have hbt : b ∈ t := by
        rcases List.mem_cons.mp hb with hbx | hbt
        · exact absurd (hbx.trans hax.symm) (Ne.symm hne)
        · exact hbt
      have hpos : 0 < t.countP p := List.countP_pos_iff.mpr ⟨b, hbt, hpb⟩
      rw [if_pos (hax ▸ hpa)]
      omega
    · rcases List.mem_cons.mp hb with hbx | hbt
      · have hpos : 0 < t.countP p := List.countP_pos_iff.mpr ⟨a, hat, hpa⟩
        rw [if_pos (hbx ▸ hpb)]
        omega
      · have := ih hat hbt hne hpa hpb
        omega

theorem find_delete_eq_filter {m : Rec} {p : Str → Bool}
    (hcount : (keysOf m).countP p ≤ 1) :
    (match (keysOf m).find? p with
     | some k => jsDelete m k
     | none => m) = m.filter (fun e => !(p e.fst)) := by
  cases hf : (keysOf m).find? p with
  | none =>
    simp only
    refine (List.filter_eq_self.mpr ?_).symm
    intro e he
    have := List.find?_eq_none.mp hf e.fst (List.mem_map_of_mem _ he)
    simp only [Bool.not_eq_true'] at this ⊢
    simpa using this
  | some k =>
    simp only
    unfold jsDelete
    apply List.filter_congr
    intro e he
    by_cases hek : e.fst = k
    · have hpk : p k = true := List.find?_some hf
      rw [hek]
      simp [hpk]
    · have hpe : p e.fst = false := by
        by_contra hp
        have hp' : p e.fst = true := by simpa using hp
        have hkmem : k ∈ keysOf m := List.mem_of_find?_eq_some hf
        have hemem : e.fst ∈ keysOf m := List.mem_map_of_mem _ he
        have := two_distinct_countP hemem hkmem hek hp' (List.find?_some hf)
        omega
      simp [hek, hpe]

theorem processHeaders_fst_cookie_some {H C : Rec} {ck : Str}
    (hf : (keysOf H).find? (fun k => decide (lowerJS k = cookieName))
        = some ck) :
    (processHeaders H C).fst =
      (match (keysOf (jsDelete H ck)).find?
          (fun k => decide (lowerJS k = encName)) with
       | some ek => jsDelete (jsDelete H ck) ek
       | none => jsDelete H ck) := by
  rw [processHeaders_cookie_some hf]

theorem processHeaders_fst_cookie_none {H C : Rec}
    (hf : (keysOf H).find? (fun k => decide (lowerJS k = cookieName))
        = none) :
    (processHeaders H C).fst =
      (match (keysOf H).find? (fun k => decide (lowerJS k = encName)) with
       | some ek => jsDelete H ek
       | none => H) := by
  rw [processHeaders_cookie_none hf]

theorem processHeaders_fst_filter (H C : Rec)
    (h1 : (keysOf H).countP (fun k => decide (lowerJS k = cookieName)) ≤ 1)
    (h2 : (keysOf H).countP (fun k => decide (lowerJS k = encName)) ≤ 1) :
    (processHeaders H C).fst = H.filter
      (fun e => !(decide (lowerJS e.fst = cookieName))
        && !(decide (lowerJS e.fst = encName))) := by
  have h1' := find_delete_eq_filter h1
  cases hf : (keysOf H).find? (fun k => decide (lowerJS k = cookieName)) with
  | none =>
    rw [processHeaders_fst_cookie_none hf]
    have hnocookie : ∀ e ∈ H, decide (lowerJS e.fst = cookieName) = false := by
      intro e he
      have := List.find?_eq_none.mp hf e.fst (List.mem_map_of_mem _ he)
      simpa using this
    rw [find_delete_eq_filter h2]
    apply List.filter_congr
    intro e he
    rw [hnocookie e he]
    rfl
  | some ck =>
    rw [processHeaders_fst_cookie_some hf]
    simp only [hf] at h1'
    rw [h1']
    have hcount2 : (keysOf (H.filter
        (fun e => !(decide (lowerJS e.fst = cookieName))))).countP
          (fun k => decide (lowerJS k = encName)) ≤ 1 := by
      refine le_trans (List.Sublist.countP_le _ ?_) h2
      exact (List.filter_sublist H).map Prod.fst
    rw [find_delete_eq_filter hcount2, List.filter_filter]
    apply List.filter_congr
    intro e he
    rw [Bool.and_comm]

theorem jsGet_isSome_of_mem_keys {m : Rec} {k : Str}
    (h : k ∈ keysOf m) : ∃ v, jsGet m k = some v := by
  unfold jsGet
  obtain ⟨e, he, hek⟩ := List.mem_map.mp h
  cases hfind : m.find? (fun e => decide (e.fst = k)) with
  | none =>
    have := List.find?_eq_none.mp hfind e he
    rw [hek] at this
    simp at this
  | some e' => exact ⟨e'.snd, rfl⟩

/-! ### Lemmas about link extraction -/

theorem mem_dedupFirstAux {u : Str} :
    ∀ (l seen : List Str), u ∈ dedupFirstAux seen l ↔ u ∈ l ∧ u ∉ seen := by
  intro l
  induction l with
  | nil => intro seen; simp [dedupFirstAux]
  | cons x xs ih =>
    intro seen
    simp only [dedupFirstAux]
    by_cases hx : x ∈ seen
    · rw [if_pos hx, ih seen, List.mem_cons]
      constructor
      · exact fun h => ⟨Or.inr h.1, h.2⟩
      · rintro ⟨h1 | h1, h2⟩
        · exact absurd (h1 ▸ hx) h2
        · exact ⟨h1, h2⟩
    · rw [if_neg hx]
      simp only [List.mem_cons, ih (x :: seen)]
      constructor
      · rintro (rfl | ⟨h1, h2⟩)
        · exact ⟨Or.inl rfl, hx⟩
        · exact ⟨Or.inr h1, fun hs => h2 (Or.inr hs)⟩
      · rintro ⟨h1 | h1, h2⟩
        · exact Or.inl h1
        · rcases eq_or_ne u x with rfl | hne
          · exact Or.inl rfl
          · refine Or.inr ⟨h1, ?_⟩
            rintro (h | h)
            · exact hne h
            · exact h2 h

theorem nodup_dedupFirstAux :
    ∀ (l seen : List Str), (dedupFirstAux seen l).Nodup := by
  intro l
  induction l with
  | nil => intro seen; simp [dedupFirstAux]
  | cons x xs ih =>
    intro seen
    simp only [dedupFirstAux]
    by_cases hx : x ∈ seen
    · rw [if_pos hx]
      exact ih seen
    · rw [if_neg hx]
      refine List.nodup_cons.mpr ⟨?_, ih (x :: seen)⟩
      intro hmem
      exact ((mem_dedupFirstAux xs (x :: seen)).mp hmem).2 (by simp)

theorem mem_dedupFirst {u : Str} {l : List Str} :
    u ∈ dedupFirst l ↔ u ∈ l := by
  unfold dedupFirst
  rw [mem_dedupFirstAux]
  simp

theorem collectLinks_eq_filterMap (resolve : Str → Str → Option Str)
    (base : Str) (hrefs : List Str) :
    collectLinks resolve base hrefs
      = hrefs.filterMap fun h => if h.isEmpty then none else resolve h base := by
  have haux : ∀ (hs : List Str) (acc : List Str),
      hs.foldl (fun links href =>
        if href.isEmpty then links
        else
          match resolve href base with
          | some u => links ++ [u]
          | none => links) acc
        = acc ++ hs.filterMap fun h => if h.isEmpty then none
            else resolve h base := by
    intro hs
    induction hs with
    | nil => intro acc; simp
    | cons h ht ih =>
      intro acc
      simp only [List.foldl_cons, List.filterMap_cons]
      by_cases he : h.isEmpty = true
      · rw [if_pos he, if_pos he, ih]
      · rw [if_neg he, if_neg he]
        cases hr : resolve h base with
        | some u =>
          rw [ih]
          simp
        | none => rw [ih]
  unfold collectLinks
  rw [haux]
  simp

/-! ### Lemmas about the execute loop -/

theorem executeLoop_const_fail :
    ∀ (fuel idx : Nat) (acc : List Nat),
      executeLoop true (fun _ => ⟨"extractLinks".data, .failure 7⟩) fuel idx
          (idx + 1) acc
        = .outOfFuel := by
  intro fuel
  induction fuel with
  | zero =>
    intro idx acc
    unfold executeLoop
    rw [if_pos (by omega)]
  | succ fuel ih =>
    intro idx acc
    unfold executeLoop
    rw [if_pos (by omega)]
    simp only
    rw [if_pos (by decide)]
    exact ih (idx + 1) acc

theorem executeLoop_all_success (cof : Bool) (params : Nat → ItemSpec) :
    ∀ (fuel idx n : Nat) (acc : List Nat),
      n - idx ≤ fuel →
      (∀ i, idx ≤ i → i < n → (params i).operation ∈ knownOps →
        ∃ r, (params i).fetch = .success r) →
      executeLoop cof params fuel idx n acc
        = .done (acc ++ (List.range' idx (n - idx)).filterMap
            (fun i =>
              if (params i).operation ∈ knownOps then
                match (params i).fetch with
                | .success r => some r
                | .failure _ => none
              else none)) := by
  intro fuel
  induction fuel with
  | zero =>
    intro idx n acc hfuel _
    have hn : ¬(idx < n) := by omega
    have h0 : n - idx = 0 := by omega
    unfold executeLoop
    rw [if_neg hn, h0]
    simp
  | succ fuel ih =>
    intro idx n acc hfuel hsucc
    by_cases hlt : idx < n
    · have hrange : n - idx = (n - (idx + 1)) + 1 := by omega
      unfold executeLoop
      rw [if_pos hlt]
      simp only
      by_cases hop : (params idx).operation ∈ knownOps
      · obtain ⟨r, hr⟩ := hsucc idx le_rfl hlt hop
        rw [if_pos hop, hr]
        simp only
        rw [ih (idx + 1) n (acc ++ [r]) (by omega)
            fun i h1 h2 h3 => hsucc i (by omega) h2 h3,
          hrange, List.range'_succ idx (n - (idx + 1)) 1,
          List.filterMap_cons]
        simp [hop, hr]
      · rw [if_neg hop,
          ih (idx + 1) n acc (by omega)
            fun i h1 h2 h3 => hsucc i (by omega) h2 h3,
          hrange, List.range'_succ idx (n - (idx + 1)) 1,
          List.filterMap_cons]
        simp [hop]
    · have h0 : n - idx = 0 := by omega
      unfold executeLoop
      rw [if_neg hlt, h0]
      simp

theorem navigatorPatch_eq (H C : Rec) :
    navigatorPatch H C =
      if (keysOf (processHeaders H C).fst).length > 0 then
        match (keysOf (processHeaders H C).fst).find?
            (fun k => decide (lowerJS k = uaName)) with
        | some uaKey => some ((jsGet (processHeaders H C).fst uaKey).getD [])
        | none => none
      else none := rfl

/-! ### Claim theorems -/

/-- Claim C1, amended.  When `ck` is the first header key whose lower
case is `cookie` (in JS object insertion order) and `rawv` is its
value, `processHeaders` merges the pairs parsed from `rawv` into the
cookie mapping with `Object.assign(cookies, extracted)`, so a
header-derived pair OVERWRITES an entry already present in the
explicit cookie mapping (the header-derived value wins, not the
explicit one), and `ck` is absent from the returned header mapping. -/
theorem claim_c1_cookie_header_merge (H C : Rec) (ck rawv : Str)
    (hfind : (keysOf H).find? (fun k => decide (lowerJS k = cookieName))
        = some ck)
    (hget : jsGet H ck = some rawv) :
    (processHeaders H C).snd = objAssign C (parseCookieString rawv)
    ∧ ck ∉ keysOf (processHeaders H C).fst := by
  constructor
  · rw [processHeaders_cookie_some hfind]
    simp only [hget]
    rfl
  · cases henc : (keysOf (jsDelete H ck)).find?
        (fun k => decide (lowerJS k = encName)) with
    | none =>
      rw [processHeaders_fst_cookie_some hfind]
      simp only [henc]
      exact keysOf_jsDelete_not_mem
    | some ek =>
      rw [processHeaders_fst_cookie_some hfind]
      simp only [henc]
      exact fun m => keysOf_jsDelete_not_mem (keysOf_jsDelete_subset m)

/-- Claim C1 witness: explicit cookie mapping `{a: 99}` with header
`Cookie: a=1` — the merge formula of the amended claim holds and the
`Cookie` key is gone from the final headers. -/
theorem claim_c1_witness :
    (processHeaders [("Cookie".data, "a=1".data)] [("a".data, "99".data)]).snd
      = objAssign [("a".data, "99".data)] (parseCookieString "a=1".data)
    ∧ "Cookie".data ∉ keysOf
        (processHeaders [("Cookie".data, "a=1".data)]
          [("a".data, "99".data)]).fst :=
  claim_c1_cookie_header_merge [("Cookie".data, "a=1".data)]
    [("a".data, "99".data)] "Cookie".data "a=1".data (by decide) (by decide)

/-- Claim C1 counterexample: the claim as stated says the explicit
cookie mapping `{a: 99}` wins over a `Cookie: a=1` header; in the code
`Object.assign(cookies, extractedCookies)` lets the header-derived
value win, so the final cookie value is `a:1`, not `a:99`. -/
theorem claim_c1_counterexample :
    (processHeaders [("Cookie".data, "a=1".data)] [("a".data, "99".data)]).snd
      = [("a".data, "1".data)]
    ∧ jsGet (processHeaders [("Cookie".data, "a=1".data)]
        [("a".data, "99".data)]).snd "a".data ≠ some "99".data := by
  decide

/-- Claim C2, amended.  `processHeaders` mutates its cookie-mapping
argument (`Object.assign(cookies, extractedCookies)` writes into it);
whenever no header key case-insensitively equals `cookie`, the cookie
mapping is unchanged by the call.  (A cookie header whose value parses
to no pairs, or only to pairs already present with the same values,
also leaves the entries unchanged, so this condition is sufficient but
not necessary.) -/
theorem claim_c2_pure_when_no_cookie_header (H C : Rec)
    (h : ∀ key ∈ keysOf H, ¬(lowerJS key = cookieName)) :
    (processHeaders H C).snd = C := by
  have hf : (keysOf H).find? (fun k => decide (lowerJS k = cookieName))
      = none :=
    List.find?_eq_none.mpr fun x hx => by simpa using h x hx
  rw [processHeaders_cookie_none hf]

/-- Claim C2 witness: with no `Cookie` header, the cookie mapping is
returned untouched. -/
theorem claim_c2_witness :
    (processHeaders [("X-Test".data, "1".data)] [("k".data, "v".data)]).snd
      = [("k".data, "v".data)] :=
  claim_c2_pure_when_no_cookie_header [("X-Test".data, "1".data)]
    [("k".data, "v".data)] (by decide)

/-- Claim C2 counterexample: the claim says the cookie-mapping argument
holds exactly the same entries after the call; with a `Cookie: a=1`
header and an initially empty cookie mapping, the cookie mapping after
the call is `{a: "1"}`, not `{}` — the function is not pure in its
cookie argument. -/
theorem claim_c2_counterexample :
    (processHeaders [("Cookie".data, "a=1".data)] []).snd
      = [("a".data, "1".data)]
    ∧ (processHeaders [("Cookie".data, "a=1".data)] []).snd ≠ [] := by
  decide

/-- Claim C3.  For a single-item batch whose fetch fails with
continue-on-fail enabled, the `catch` clause pushes the failure record
onto the mutable *input* `items` array rather than `returnData`: the
loop bound `items.length` therefore grows, the appended record is
itself re-processed (failing again), and the loop never completes for
any amount of fuel — no failure outcome is ever attached to the
returned batch.  Without continue-on-fail the error is re-raised with
the originating item index, as the claim describes. -/
theorem claim_c3_failure_record_lost (fuel : Nat) :
    executeModel true (fun _ => ⟨"extractLinks".data, .failure 7⟩) 1 fuel
      = .outOfFuel
    ∧ executeModel false (fun _ => ⟨"extractLinks".data, .failure 7⟩) 1
        (fuel + 1)
      = .raised 7 0 := by
  constructor
  · exact executeLoop_const_fail fuel 0 []
  · show executeLoop false (fun _ => ⟨"extractLinks".data, .failure 7⟩)
      (fuel + 1) 0 1 [] = .raised 7 0
    unfold executeLoop
    rw [if_pos (by omega)]
    simp only
    rw [if_pos (by decide)]
    rfl

/-- Claim C4.  Colon-form header parsing: for any non-empty family of
well-formed keys and newline-free values, assembled into one line per
pair with arbitrary surrounding spaces and optional quotes around the
key, `parseRawHeaders` splits each line at its first colon, takes the
trimmed quote-stripped left side as the key and the trimmed right side
as the value — and the result equals the parse of the undecorated
`key:value` lines, i.e. it does not depend on the whitespace/quote
decoration. -/
theorem claim_c4_colon_form
    (ps : List (Str × Str)) (ds : List (Nat × Nat × Bool))
    (hne : ps ≠ []) (hlen : ds.length = ps.length)
    (hkeys : ∀ p ∈ ps, goodKey p.1) (hvals : ∀ p ∈ ps, '\n' ∉ p.2) :
    parseRawHeaders (joinSep '\n'
        (List.zipWith (fun p d => decoKeyLine d p.1 p.2) ps ds))
      = ps.foldl (fun m p => jsSet m p.1 (trimJS p.2)) []
    ∧ parseRawHeaders (joinSep '\n' (ps.map fun p => p.1 ++ ':' :: p.2))
      = ps.foldl (fun m p => jsSet m p.1 (trimJS p.2)) [] := by
  constructor
  · exact parseRawHeaders_colon_general ps ds hne hlen hkeys hvals
  · have h := parseRawHeaders_colon_general ps
      (List.replicate ps.length (0, 0, false)) hne (by simp) hkeys hvals
    rwa [zipWith_replicate_deco] at h

/-- Claim C4 witness: the quoted, space-padded line
`  "Accept" : text/html ` parses to the entry `Accept ↦ text/html`. -/
theorem claim_c4_witness :
    parseRawHeaders (joinSep '\n'
        (List.zipWith (fun p d => decoKeyLine d p.1 p.2)
          [("Accept".data, " text/html ".data)] [(2, 1, true)]))
      = [("Accept".data, "text/html".data)] := by
  have h := (claim_c4_colon_form [("Accept".data, " text/html ".data)]
    [(2, 1, true)] (by decide) (by decide) (by decide) (by decide)).1
  exact h.trans (by decide)

/-- Claim C5.  Alternating-line header parsing: when no line contains a
colon, lines are consumed in (key line, value line) pairs with the same
key validation as the colon form (quotes stripped), and a trailing
unpaired line — present or absent — never contributes an entry. -/
theorem claim_c5_alternating_form
    (ps : List (Str × Str)) (qs : List Bool) (t : Str)
    (hlen : qs.length = ps.length)
    (hz : ∀ e ∈ ps.zip qs, goodAltEntry e)
    (ht : ':' ∉ t ∧ '\n' ∉ t) :
    parseRawHeaders (joinSep '\n' (interleaveQ (ps.zip qs) ++ [t]))
      = ps.foldl (fun m p => jsSet m p.1 p.2) []
    ∧ parseRawHeaders (joinSep '\n' (interleaveQ (ps.zip qs)))
      = ps.foldl (fun m p => jsSet m p.1 p.2) [] := by
  have hfold : (ps.zip qs).foldl (fun m e => jsSet m e.1.1 e.1.2) ([] : Rec)
      = ps.foldl (fun m p => jsSet m p.1 p.2) [] := by
    have h := List.foldl_map Prod.fst
      (fun m (p : Str × Str) => jsSet m p.1 p.2) (ps.zip qs) ([] : Rec)
    rw [List.map_fst_zip ps qs (by omega)] at h
    exact h.symm
  constructor
  · rw [parseRawHeaders_alt_general (ps.zip qs) [t] hz
      (by
        intro l hl
        rw [List.mem_singleton] at hl
        subst hl
        exact ht)
      (Or.inr ⟨t, rfl⟩)]
    exact hfold
  · have h := parseRawHeaders_alt_general (ps.zip qs) [] hz (by simp)
      (Or.inl rfl)
    rw [List.append_nil] at h
    rw [h]
    exact hfold

/-- Claim C5 witness: key/value pairs on alternating lines, the first
key quoted, with a trailing unpaired line that is discarded. -/
theorem claim_c5_witness :
    parseRawHeaders (joinSep '\n'
        (interleaveQ (([("K1".data, "v1".data), ("K2".data, "v2".data)]
            : List (Str × Str)).zip [true, false]) ++ ["orphan".data]))
      = [("K1".data, "v1".data), ("K2".data, "v2".data)] := by
  have h := (claim_c5_alternating_form
    [("K1".data, "v1".data), ("K2".data, "v2".data)] [true, false]
    "orphan".data (by decide) (by decide) (by decide)).1
  exact h.trans (by decide)

theorem zipWith_replicate_cookieSeg :
    ∀ ps : List (Str × Str),
      List.zipWith (fun p d => cookieSeg d p.1 p.2) ps
          (List.replicate ps.length (0, 0))
        = ps.map fun p => p.1 ++ '=' :: p.2 := by
  intro ps
  induction ps with
  | nil => rfl
  | cons p ps' ih =>
    simp only [List.length_cons, List.replicate_succ, List.zipWith_cons_cons,
      List.map_cons, ih]
    simp [cookieSeg, spacesN]

/-- Claim C6.  The raw-cookie normalizer splits on `;`, trims each
segment, drops empty and `=`-free segments, and maps the text before
each segment's first `=` to the text after it; the result is invariant
under extra whitespace around segments and a trailing `;`, and on
undecorated `k=v` segments it is the evident mapping. -/
theorem claim_c6_cookie_normalizer
    (ps : List (Str × Str)) (ds : List (Nat × Nat)) (trailing : Bool)
    (hne : ps ≠ []) (hlen : ds.length = ps.length)
    (hk : ∀ p ∈ ps, goodCookieKey p.1) (hv : ∀ p ∈ ps, goodCookieVal p.2) :
    parseCookieString (joinSep ';'
        (List.zipWith (fun p d => cookieSeg d p.1 p.2) ps ds
          ++ (if trailing then [[]] else [])))
      = ps.foldl (fun m p => jsSet m p.1 p.2) []
    ∧ parseCookieString (joinSep ';' (ps.map fun p => p.1 ++ '=' :: p.2))
      = ps.foldl (fun m p => jsSet m p.1 p.2) [] := by
  constructor
  · exact parseCookieString_general ps ds trailing hne hlen hk hv
  · have h := parseCookieString_general ps (List.replicate ps.length (0, 0))
      false hne (by simp) hk hv
    rwa [zipWith_replicate_cookieSeg, if_neg (by simp), List.append_nil] at h

/-- Claim C6 witness: `k1=v1; k2=v2;` — with a space before the second
segment and a trailing semicolon — parses to `{k1: v1, k2: v2}`. -/
theorem claim_c6_witness :
    parseCookieString "k1=v1; k2=v2;".data
      = [("k1".data, "v1".data), ("k2".data, "v2".data)] := by
  have h := (claim_c6_cookie_normalizer
    [("k1".data, "v1".data), ("k2".data, "v2".data)] [(0, 0), (1, 0)] true
    (by decide) (by decide) (by decide) (by decide)).1
  have hraw : joinSep ';'
      (List.zipWith (fun p d => cookieSeg d p.1 p.2)
        [("k1".data, "v1".data), ("k2".data, "v2".data)] [(0, 0), (1, 0)]
        ++ (if true then [[]] else [])) = "k1=v1; k2=v2;".data := by decide
  rw [hraw] at h
  exact h.trans (by decide)

/-- Claim C7, amended.  If the header mapping has at most one key whose
lower case is `cookie` and at most one whose lower case is
`accept-encoding` (always the case for real JS header objects, but not
for mappings carrying, say, both `Cookie` and `COOKIE` — the code only
deletes the FIRST matching key), then the returned header mapping is
exactly the input with those keys filtered out: no cookie or
accept-encoding key survives, and every other entry keeps its original
casing and value. -/
theorem claim_c7_final_headers (H C : Rec)
    (h1 : (keysOf H).countP (fun k => decide (lowerJS k = cookieName)) ≤ 1)
    (h2 : (keysOf H).countP (fun k => decide (lowerJS k = encName)) ≤ 1) :
    (processHeaders H C).fst = H.filter
        (fun e => !(decide (lowerJS e.fst = cookieName))
          && !(decide (lowerJS e.fst = encName)))
    ∧ (∀ key ∈ keysOf (processHeaders H C).fst,
        ¬(lowerJS key = cookieName) ∧ ¬(lowerJS key = encName))
    ∧ ∀ e ∈ H, ¬(lowerJS e.fst = cookieName) → ¬(lowerJS e.fst = encName) →
        e ∈ (processHeaders H C).fst := by
  have hmain := processHeaders_fst_filter H C h1 h2
  refine ⟨hmain, ?_, ?_⟩
  · intro key hkey
    rw [hmain] at hkey
    obtain ⟨e, he, hek⟩ := List.mem_map.mp hkey
    have hp := (List.mem_filter.mp he).2
    rw [hek] at hp
    constructor
    · intro hc
      simp [hc] at hp
    · intro hc
      simp [hc] at hp
  · intro e he h1e h2e
    rw [hmain]
    exact List.mem_filter.mpr ⟨he, by simp [h1e, h2e]⟩

/-- Claim C7 witness: `Cookie` and `Accept-Encoding` are removed, the
remaining entry keeps its original casing and value. -/
theorem claim_c7_witness :
    (processHeaders [("Cookie".data, "a=1".data),
        ("Accept-Encoding".data, "gzip".data), ("X-Th".data, "v".data)]
      []).fst = [("X-Th".data, "v".data)] := by
  have h := (claim_c7_final_headers
    [("Cookie".data, "a=1".data), ("Accept-Encoding".data, "gzip".data),
      ("X-Th".data, "v".data)] [] (by decide) (by decide)).1
  exact h.trans (by decide)

/-- Claim C7 counterexample: with both `Cookie` and `COOKIE` present,
only the first is removed; the returned header mapping still contains a
key that case-insensitively equals `cookie`, contradicting the claim as
stated for arbitrary header mappings. -/
theorem claim_c7_counterexample :
    (processHeaders [("Cookie".data, "a=1".data),
        ("COOKIE".data, "b=2".data)] []).fst
      = [("COOKIE".data, "b=2".data)]
    ∧ lowerJS "COOKIE".data = cookieName := by
  decide

/-- Claim C8.  `extractLinks` for one fetched page: the returned link
list is duplicate-free; a URL appears in it exactly when some anchor
has that URL as the successful resolution of its non-empty `href`
(empty hrefs and failed resolutions are silently skipped); and on a
page with hrefs `x`, `y`, `x` (duplicate) resolving to two distinct
absolute URLs, exactly those two URLs are returned in first-occurrence
order. -/
theorem claim_c8_extract_links (resolve : Str → Str → Option Str)
    (base : Str) (hrefs : List Str) :
    (extractLinksResult resolve base hrefs).Nodup
    ∧ (∀ u, u ∈ extractLinksResult resolve base hrefs ↔
        ∃ h, h ∈ hrefs ∧ h ≠ [] ∧ resolve h base = some u)
    ∧ ∀ x y rx ry, x ≠ [] → y ≠ [] →
        resolve x base = some rx → resolve y base = some ry → rx ≠ ry →
        extractLinksResult resolve base [x, y, x] = [rx, ry] := by
  refine ⟨nodup_dedupFirstAux _ [], ?_, ?_⟩
  · intro u
    unfold extractLinksResult
    rw [mem_dedupFirst, collectLinks_eq_filterMap, List.mem_filterMap]
    constructor
    · rintro ⟨h, hh, hfh⟩
      by_cases he : h.isEmpty = true
      · rw [if_pos he] at hfh
        simp at hfh
      · rw [if_neg he] at hfh
        exact ⟨h, hh, by simpa using he, hfh⟩
    · rintro ⟨h, hh, hne, hr⟩
      refine ⟨h, hh, ?_⟩
      rw [if_neg (by simpa using hne)]
      exact hr
  · intro x y rx ry hx hy hrx hry hne
    unfold extractLinksResult
    rw [collectLinks_eq_filterMap]
    have hfx : (if x.isEmpty then none else resolve x base) = some rx := by
      rw [if_neg (by simpa using hx)]
      exact hrx
    have hfy : (if y.isEmpty then none else resolve y base) = some ry := by
      rw [if_neg (by simpa using hy)]
      exact hry
    have hflt : List.filterMap
        (fun h => if h.isEmpty then none else resolve h base) [x, y, x]
        = [rx, ry, rx] := by
      rw [List.filterMap_cons, hfx]
      simp only
      rw [List.filterMap_cons, hfy]
      simp only
      rw [List.filterMap_cons, hfx]
      rfl
    rw [hflt]
    unfold dedupFirst
    simp only [dedupFirstAux]
    rw [if_neg (by simp), if_neg (by simp [Ne.symm hne]),
      if_pos (by simp)]

/-- Claim C8 witness: hrefs `/x`, `http://y.com`, `/x` against a
concrete resolver yield exactly the two distinct absolute URLs, in
first-occurrence order. -/
theorem claim_c8_witness :
    extractLinksResult (fun h b => some (b ++ h)) "u:".data
      ["/x".data, "http://y.com".data, "/x".data]
      = ["u:/x".data, "u:http://y.com".data] :=
  (claim_c8_extract_links (fun h b => some (b ++ h)) "u:".data
    ["/x".data, "http://y.com".data, "/x".data]).2.2
    "/x".data "http://y.com".data "u:/x".data "u:http://y.com".data
    (by decide) (by decide) (by decide) (by decide) (by decide)

/-- Claim C9.  The browser-path navigator patch: when the reconciled
header mapping contains a key whose lower case is `user-agent`, the
init script installed by the pre-navigation hook reports exactly that
header's value as `navigator.userAgent` (the first such key in
insertion order); when no such key exists, no patch is installed. -/
theorem claim_c9_navigator_patch (H C : Rec) :
    ((∃ key ∈ keysOf (processHeaders H C).fst, lowerJS key = uaName) →
      ∃ k v, k ∈ keysOf (processHeaders H C).fst ∧ lowerJS k = uaName ∧
        jsGet (processHeaders H C).fst k = some v ∧
        navigatorPatch H C = some v)
    ∧ ((∀ key ∈ keysOf (processHeaders H C).fst, ¬(lowerJS key = uaName)) →
        navigatorPatch H C = none) := by
  constructor
  · rintro ⟨key0, hmem, hlow⟩
    cases hfind : (keysOf (processHeaders H C).fst).find?
        (fun k => decide (lowerJS k = uaName)) with
    | none =>
      exact absurd hlow (by simpa using List.find?_eq_none.mp hfind key0 hmem)
    | some k =>
      have hkmem := List.mem_of_find?_eq_some hfind
      have hklow : lowerJS k = uaName := by simpa using List.find?_some hfind
      obtain ⟨v, hv⟩ := jsGet_isSome_of_mem_keys hkmem
      refine ⟨k, v, hkmem, hklow, hv, ?_⟩
      rw [navigatorPatch_eq,
        if_pos (List.length_pos.mpr (List.ne_nil_of_mem hkmem)), hfind]
      simp only
      rw [hv]
      rfl
  · intro hnone
    have hfind : (keysOf (processHeaders H C).fst).find?
        (fun k => decide (lowerJS k = uaName)) = none :=
      List.find?_eq_none.mpr fun x hx => by simpa using hnone x hx
    rw [navigatorPatch_eq]
    by_cases hlen : (keysOf (processHeaders H C).fst).length > 0
    · rw [if_pos hlen, hfind]
    · rw [if_neg hlen]

/-- Claim C9 witness: a `User-Agent: UA1` header leads to the patch
value `UA1`; a header mapping with no user-agent key installs no
patch. -/
theorem claim_c9_witness :
    (∃ k v, k ∈ keysOf (processHeaders
        [("User-Agent".data, "UA1".data)] []).fst
      ∧ lowerJS k = uaName
      ∧ jsGet (processHeaders [("User-Agent".data, "UA1".data)] []).fst k
          = some v
      ∧ navigatorPatch [("User-Agent".data, "UA1".data)] [] = some v)
    ∧ navigatorPatch [("X1".data, "y".data)] [] = none :=
  ⟨(claim_c9_navigator_patch [("User-Agent".data, "UA1".data)] []).1
      (by decide),
   (claim_c9_navigator_patch [("X1".data, "y".data)] []).2 (by decide)⟩

/-- Claim C10.  An input item whose operation value is none of
`extractLinks`, `extractText`, `extractHtml` falls through the
`if`/`else if` chain: no fetch is attempted, no record is appended for
it, no error is raised, and the loop continues; when every known-op
item succeeds, the batch output consists exactly of the records of the
known-op items, in order. -/
theorem claim_c10_unknown_operation (cof : Bool) (params : Nat → ItemSpec)
    (n fuel : Nat) (hfuel : n ≤ fuel)
    (hsucc : ∀ i, i < n → (params i).operation ∈ knownOps →
      ∃ r, (params i).fetch = .success r) :
    executeModel cof params n fuel
      = .done ((List.range' 0 n).filterMap fun i =>
          if (params i).operation ∈ knownOps then
            match (params i).fetch with
            | .success r => some r
            | .failure _ => none
          else none) := by
  unfold executeModel
  have h := executeLoop_all_success cof params fuel 0 n [] (by omega)
    fun i h1 h2 h3 => hsucc i h2 h3
  simpa using h

/-- Claim C10 witness: a two-item batch in which item 0 has the unknown
operation `foo` (and would even fail if fetched) and item 1 is a
successful `extractText`; the output contains only item 1's record and
no error is raised. -/
theorem claim_c10_witness :
    executeModel false
      (fun i => if i = 0 then ⟨"foo".data, .failure 3⟩
        else ⟨"extractText".data, .success 5⟩) 2 2
      = .done [5] := by
  have h := claim_c10_unknown_operation false
    (fun i => if i = 0 then ⟨"foo".data, .failure 3⟩
      else ⟨"extractText".data, .success 5⟩) 2 2 (by omega)
    (by
      intro i hi hop
      match i, hi with
      | 0, _ => exact absurd hop (by decide)
      | 1, _ => exact ⟨5, rfl⟩)
  exact h.trans (by decide)

end CrawlScrape
